import Mathlib

/-!
Verification development for the flashlight repository slice consisting of
`src/flashlight/nn/modules/AdaptiveSoftMaxLoss.h` and
`src/flashlight/nn/modules/Conv2D.cpp`.

The Conv2D definitions are shallow embeddings of the code in `Conv2D.cpp`.
The AdaptiveSoftMaxLoss implementation file (`AdaptiveSoftMaxLoss.cpp`) is not
part of the provided sources (only the header with declarations and doc
comments is), so the corresponding definitions are modelled from the spec, as
marked in their doc comments.  Machine floats are modelled by `ℚ` (exact
configuration arithmetic) and `ℝ` (tensor arithmetic).
-/

/-- Reduction modes of a loss, from flashlight's `ReduceMode` enum
(referenced by `AdaptiveSoftMaxLoss.h`): `NONE`, `MEAN`, `SUM`. -/
inductive ReduceMode where
  | NONE
  | MEAN
  | SUM
deriving DecidableEq

/-- An ArrayFire tensor's shape: four dimensions, as used by `Conv2D.cpp`
(`w.dims(0) .. w.dims(3)`). -/
structure FLVariable where
  d0 : ℕ
  d1 : ℕ
  d2 : ℕ
  d3 : ℕ
deriving DecidableEq

/-- `v.dims i` mirrors `af::array::dims(i)`: dimensions past the fourth are 1. -/
def FLVariable.dims (v : FLVariable) (i : ℕ) : ℕ :=
  match i with
  | 0 => v.d0
  | 1 => v.d1
  | 2 => v.d2
  | 3 => v.d3
  | _ + 4 => 1

/-- `v.elements` mirrors `af::array::elements()`: the product of the four
dimensions. -/
def FLVariable.elements (v : FLVariable) : ℕ := v.d0 * v.d1 * v.d2 * v.d3

/-- The error thrown by `AFML_THROW_ERR` in the explicit-parameter `Conv2D`
constructor (`Conv2D.cpp`, lines 81-92). -/
inductive ShapeMismatchError where
  | outputChannelMismatch
  | biasNonSingleton
deriving DecidableEq

/-- The state of a constructed `Conv2D` module: stored parameter tensors and
the scalar configuration fields of `Conv2D.cpp`. -/
structure Conv2DState where
  params : List FLVariable
  nIn : ℕ
  nOut : ℕ
  xFilter : ℕ
  yFilter : ℕ
  xStride : ℤ
  yStride : ℤ
  xPad : ℤ
  yPad : ℤ
  bias : Bool
  groups : ℤ

/-- The weight-only explicit-parameter constructor of `Conv2D.cpp`
(lines 43-60): stores `w`, derives `nIn_ = w.dims(2)`, `nOut_ = w.dims(3)`,
filter sizes from `w.dims(0..1)`, sets `bias_ = false`, and performs no
validation (hence never an error). -/
def conv2dFromWeight (w : FLVariable) (sx sy px py groups : ℤ) :
    Except ShapeMismatchError Conv2DState :=
  Except.ok ⟨[w], w.dims 2, w.dims 3, w.dims 0, w.dims 1, sx, sy, px, py, false, groups⟩

/-- The weight-plus-bias explicit-parameter constructor of `Conv2D.cpp`
(lines 62-93): after member initialization, throws when
`b.dims(2) != w.dims(3)` or `b.elements() != b.dims(2)`. -/
def conv2dFromWeightBias (w b : FLVariable) (sx sy px py groups : ℤ) :
    Except ShapeMismatchError Conv2DState :=
  if b.dims 2 ≠ w.dims 3 then Except.error ShapeMismatchError.outputChannelMismatch
  else if b.elements ≠ b.dims 2 then Except.error ShapeMismatchError.biasNonSingleton
  else Except.ok ⟨[w, b], w.dims 2, w.dims 3, w.dims 0, w.dims 1, sx, sy, px, py, true, groups⟩

/-- The call `Conv2D::forward` dispatches to (`Conv2D.cpp`, lines 95-105):
either the bias-taking `conv2d` overload or the bias-free one. -/
inductive Conv2DCall where
  | withBias (input weight bias : FLVariable) (sx sy px py groups : ℤ)
  | withoutBias (input weight : FLVariable) (sx sy px py groups : ℤ)
deriving DecidableEq

/-- `Conv2D::forward` (`Conv2D.cpp`, lines 95-105) after the paddings `px`,
`py` have been derived by the external `detail::derivePadding` collaborator:
branches on `bias_` to pick the `conv2d` overload. -/
def conv2dForward (m : Conv2DState) (input : FLVariable) (px py : ℤ) : Conv2DCall :=
  if m.bias then
    Conv2DCall.withBias input (m.params.getD 0 ⟨0, 0, 0, 0⟩) (m.params.getD 1 ⟨0, 0, 0, 0⟩)
      m.xStride m.yStride px py m.groups
  else
    Conv2DCall.withoutBias input (m.params.getD 0 ⟨0, 0, 0, 0⟩)
      m.xStride m.yStride px py m.groups

/-! ### AdaptiveSoftMaxLoss: configuration and construction -/

/-- Strict ascent of a cutoff list, as required by the doc comment of
`AdaptiveSoftMaxLoss.h` ("a sequence of integers sorted in ascending order"). -/
def strictAscending : List ℤ → Bool
  | [] => true
  | [_] => true
  | a :: b :: rest => decide (a < b) && strictAscending (b :: rest)

/-- Construction-time error of the spec's error taxonomy (§7). -/
inductive ConfigurationError where
  | invalidCutoffs
  | reducedDimTooSmall
deriving DecidableEq

/-- The derived parameter shapes of an `AdaptiveSoftMaxLoss` module: the head
projection width and, per tail cluster, the pair
(reduced dimension, cluster size). -/
structure ASMLShapes where
  headWidth : ℕ
  tails : List (ℤ × ℤ)
deriving DecidableEq

/-- Modelled from the spec (the body of the `AdaptiveSoftMaxLoss` constructor
is not in the provided sources): walk the tail cutoffs accumulating the
denominator `divValue^i`, producing for the `i`-th tail cluster the reduced
dimension `⌊inputSize / divValue^i⌋` and the cluster size
`cutoff[i] - cutoff[i-1]` (spec §3, §4.2). -/
def tailShapesAux (inputSize : ℕ) (divValue : ℚ) : ℚ → ℤ → List ℤ → List (ℤ × ℤ)
  | _, _, [] => []
  | denom, prev, c :: rest =>
      (⌊(inputSize : ℚ) / (denom * divValue)⌋, c - prev)
        :: tailShapesAux inputSize divValue (denom * divValue) c rest

/-- Modelled from the spec (the body of the `AdaptiveSoftMaxLoss` constructor
is not in the provided sources): construction validates the cutoffs
(non-empty, all positive, strictly ascending) and every tail cluster's reduced
dimension (`≥ 1`), raising `ConfigurationError` otherwise (spec §4.1, §4.2,
§7), and records the derived shapes: head width `cutoff[0] + (K-1)` and the
tail shape list (spec §3). -/
def mkAdaptiveSoftMaxLoss (inputSize : ℕ) (cutoff : List ℤ) (divValue : ℚ) :
    Except ConfigurationError ASMLShapes :=
  match cutoff with
  | [] => Except.error ConfigurationError.invalidCutoffs
  | c0 :: rest =>
    if !((c0 :: rest).all fun c => decide (0 < c)) then
      Except.error ConfigurationError.invalidCutoffs
    else if !(strictAscending (c0 :: rest)) then
      Except.error ConfigurationError.invalidCutoffs
    else
      let tails := tailShapesAux inputSize divValue 1 c0 rest
      if tails.all fun q => decide (1 ≤ q.1) then
        Except.ok ⟨c0.toNat + rest.length, tails⟩
      else Except.error ConfigurationError.reducedDimTooSmall

/-! ### AdaptiveSoftMaxLoss: target partition (`setTargets`) -/

/-- Forward-time error of the spec's error taxonomy (§7). -/
inductive InvalidTargetError where
  | targetOutOfRange
deriving DecidableEq

/-- Modelled from the spec (the body of `AdaptiveSoftMaxLoss::setTargets` is
not in the provided sources): the lower class bound of cluster `i`
(spec §3: cluster 0 covers `[0, cutoff[0])`, cluster `i > 0` covers
`[cutoff[i-1], cutoff[i])`). -/
def clusterLo (cutoff : List ℤ) (i : ℕ) : ℤ :=
  if i = 0 then 0 else cutoff.getD (i - 1) 0

/-- Membership of batch position `p` in cluster `i`'s range mask:
`clusterLo i ≤ targets[p] < cutoff[i]`. -/
def inMaskB (cutoff targets : List ℤ) (i p : ℕ) : Bool :=
  decide (clusterLo cutoff i ≤ targets.getD p 0) &&
    decide (targets.getD p 0 < cutoff.getD i 0)

/-- Modelled from the spec (§4.3): the position mask of cluster `i` over a
batch of targets, i.e. the batch positions whose target lies in cluster `i`'s
class range. -/
def maskOf (cutoff targets : List ℤ) (i : ℕ) : List ℕ :=
  (List.range targets.length).filter (inMaskB cutoff targets i)

/-- Modelled from the spec (§4.3): the within-cluster shifted targets of
cluster `i`, `classId - lo` at each masked position. -/
def chunkOf (cutoff targets : List ℤ) (i : ℕ) : List ℤ :=
  (maskOf cutoff targets i).map fun p => targets.getD p 0 - clusterLo cutoff i

/-- Validity of a target batch: every id in `[0, cutoffs.back())` (spec §3). -/
def validTargetsB (cutoff targets : List ℤ) : Bool :=
  targets.all fun t => decide (0 ≤ t) && decide (t < cutoff.getD (cutoff.length - 1) 0)

/-- Modelled from the spec (the body of `AdaptiveSoftMaxLoss::setTargets`,
declared at `AdaptiveSoftMaxLoss.h` lines 36-39, is not in the provided
sources): validates all target ids and produces, per cluster, the position
mask and the shifted target chunk; raises `InvalidTargetError` on any
out-of-range id (spec §4.3, §7). -/
def setTargets (cutoff targets : List ℤ) :
    Except InvalidTargetError (List (List ℕ × List ℤ)) :=
  if validTargetsB cutoff targets then
    Except.ok ((List.range cutoff.length).map fun i =>
      (maskOf cutoff targets i, chunkOf cutoff targets i))
  else Except.error InvalidTargetError.targetOutOfRange

/-- Modelled from the spec (§4.3, design note §9: cluster membership is
computed by scanning the cutoffs): the cluster of a target id is the first
index whose cutoff exceeds it. -/
def clusterOfTarget (cutoff : List ℤ) (t : ℤ) : ℕ :=
  cutoff.findIdx fun ub => decide (t < ub)

/-! ### AdaptiveSoftMaxLoss: parameters and log-probability engine -/

/-- The parameter bank of an `AdaptiveSoftMaxLoss` module (spec §3):
a head projection and, for each tail cluster `i ≥ 1`, a down-projection
`down i` (reduced dim `rd i` by `inputSize`) and an up-projection `up i`
(cluster size by `rd i`).  Matrices are total real-valued functions; only
the entries below the dimension bounds are ever read. -/
structure ASMLParams where
  inputSize : ℕ
  head : ℕ → ℕ → ℝ
  down : ℕ → ℕ → ℕ → ℝ
  up : ℕ → ℕ → ℕ → ℝ
  rd : ℕ → ℕ

/-- Head-cluster class count `cutoff[0]` (as a natural number). -/
def c0Of (cutoff : List ℤ) : ℕ := (cutoff.getD 0 0).toNat

/-- Head projection output width `cutoff[0] + (K - 1)` (spec §3). -/
def headWidth (cutoff : List ℤ) : ℕ := c0Of cutoff + (cutoff.length - 1)

/-- Class count of cluster `i`: `cutoff[i] - lo i` (spec §3). -/
def clusterSize (cutoff : List ℤ) (i : ℕ) : ℕ :=
  (cutoff.getD i 0 - clusterLo cutoff i).toNat

/-- Matrix-vector product over the first `n` coordinates:
`(A · x) k = ∑_{f < n} A k f * x f`. -/
def matVecAt (A : ℕ → ℕ → ℝ) (n : ℕ) (x : ℕ → ℝ) (k : ℕ) : ℝ :=
  ∑ f ∈ Finset.range n, A k f * x f

/-- Head logits of one example: the head projection applied to the input
(spec §4.4: `input · headMatrix`). -/
def headLogits (P : ASMLParams) (x : ℕ → ℝ) : ℕ → ℝ :=
  matVecAt P.head P.inputSize x

/-- Tail logits of one example for tail cluster `i`:
`(input · downMatrix_i) · upMatrix_i` (spec §4.4). -/
def tailLogits (P : ASMLParams) (i : ℕ) (x : ℕ → ℝ) : ℕ → ℝ :=
  matVecAt (P.up i) (P.rd i) (matVecAt (P.down i) P.inputSize x)

/-- `log (∑_{j < n} exp (v j))`, the normalizer of a log-softmax over the
first `n` logits. -/
noncomputable def logSumExp (v : ℕ → ℝ) (n : ℕ) : ℝ :=
  Real.log (∑ j ∈ Finset.range n, Real.exp (v j))

/-- Entry `i` of the log-softmax of the first `n` logits of `v`. -/
noncomputable def logSoftmaxAt (v : ℕ → ℝ) (n : ℕ) (i : ℕ) : ℝ :=
  v i - logSumExp v n

/-- Modelled from the spec (§4.5; the body of
`AdaptiveSoftMaxLoss::getFullLogProb` is not in the provided sources): the
head-class section of the full log-probability vector, i.e. the log-softmax
of the head logits restricted to the head-class columns. -/
noncomputable def headLogProb (cutoff : List ℤ) (P : ASMLParams) (x : ℕ → ℝ) : List ℝ :=
  (List.range (c0Of cutoff)).map fun c =>
    logSoftmaxAt (headLogits P x) (headWidth cutoff) c

/-- Modelled from the spec (§4.5): the log-probability section of tail
cluster `k+1`: the head log-softmax at shortcut column `cutoff[0] + k` plus
the tail log-softmax over that cluster's classes. -/
noncomputable def tailBlock (cutoff : List ℤ) (P : ASMLParams) (x : ℕ → ℝ) (k : ℕ) : List ℝ :=
  (List.range (clusterSize cutoff (k + 1))).map fun j =>
    logSoftmaxAt (headLogits P x) (headWidth cutoff) (c0Of cutoff + k) +
      logSoftmaxAt (tailLogits P (k + 1) x) (clusterSize cutoff (k + 1)) j

/-- Concatenation of the first `n` tail-cluster sections in ascending class
order (spec §4.5: "columns are concatenated in ascending class order"). -/
noncomputable def tailConcat (cutoff : List ℤ) (P : ASMLParams) (x : ℕ → ℝ) : ℕ → List ℝ
  | 0 => []
  | k + 1 => tailConcat cutoff P x k ++ tailBlock cutoff P x k

/-- Modelled from the spec (§4.5; the bodies of
`AdaptiveSoftMaxLoss::getLogProb` and `getFullLogProb`, declared at
`AdaptiveSoftMaxLoss.h` lines 41-51 and 85-94, are not in the provided
sources): the full log-probability vector of one example, head section
followed by the tail-cluster sections in ascending class order. -/
noncomputable def getLogProbList (cutoff : List ℤ) (P : ASMLParams) (x : ℕ → ℝ) : List ℝ :=
  headLogProb cutoff P x ++ tailConcat cutoff P x (cutoff.length - 1)

/-! ### AdaptiveSoftMaxLoss: prediction -/

/-- Index of the first maximum of a list (stable argmax: ties resolve to the
lowest index). -/
def stableArgmaxList {α : Type} [LinearOrder α] [Inhabited α] : List α → ℕ
  | [] => 0
  | [_] => 0
  | x :: y :: xs =>
    let r := stableArgmaxList (y :: xs)
    if (y :: xs).getD r default ≤ x then 0 else r + 1

/-- Modelled from the spec (§4.6; the body of `AdaptiveSoftMaxLoss::predict`,
declared at `AdaptiveSoftMaxLoss.h` lines 96-105, is not in the provided
sources): the per-example predicted class is the stable argmax of the full
log-probability vector. -/
noncomputable def predictASML (cutoff : List ℤ) (P : ASMLParams) (x : ℕ → ℝ) : ℕ :=
  stableArgmaxList (getLogProbList cutoff P x)

/-! ### AdaptiveSoftMaxLoss: forward (training path) -/

/-- Modelled from the spec (§4.4): the negative log-likelihood of batch
position `p` when its target lies in cluster `i`: for the head cluster the
head log-softmax at the target id, for a tail cluster the head log-softmax at
the shortcut column plus the tail log-softmax at the shifted target, negated. -/
noncomputable def clusterTerm (cutoff : List ℤ) (P : ASMLParams) (x : ℕ → ℕ → ℝ)
    (targets : List ℤ) (i p : ℕ) : ℝ :=
  let t := targets.getD p 0
  if i = 0 then -(logSoftmaxAt (headLogits P (x p)) (headWidth cutoff) t.toNat)
  else
    -(logSoftmaxAt (headLogits P (x p)) (headWidth cutoff) (c0Of cutoff + i - 1) +
      logSoftmaxAt (tailLogits P i (x p)) (clusterSize cutoff i) (t - clusterLo cutoff i).toNat)

/-- Modelled from the spec (§4.4, §9: sparse evaluation iterates the clusters
explicitly): the summed negative log-likelihood contributed by cluster `i`,
over exactly the positions in its mask (an empty mask contributes `0` and
touches no tail parameters). -/
noncomputable def clusterLossSum (cutoff : List ℤ) (P : ASMLParams) (x : ℕ → ℕ → ℝ)
    (targets : List ℤ) (i : ℕ) : ℝ :=
  ((maskOf cutoff targets i).map (clusterTerm cutoff P x targets i)).sum

/-- Modelled from the spec (§4.4): the total summed negative log-likelihood,
assembled cluster by cluster. -/
noncomputable def forwardSumVal (cutoff : List ℤ) (P : ASMLParams) (x : ℕ → ℕ → ℝ)
    (targets : List ℤ) : ℝ :=
  ∑ i ∈ Finset.range cutoff.length, clusterLossSum cutoff P x targets i

/-- Modelled from the spec (§4.4): the per-example negative log-likelihood,
the term of the unique cluster containing the example's target. -/
noncomputable def exampleLoss (cutoff : List ℤ) (P : ASMLParams) (x : ℕ → ℕ → ℝ)
    (targets : List ℤ) (p : ℕ) : ℝ :=
  clusterTerm cutoff P x targets (clusterOfTarget cutoff (targets.getD p 0)) p

/-- Modelled from the spec (the body of `AdaptiveSoftMaxLoss::forward`,
declared at `AdaptiveSoftMaxLoss.h` line 83, is not in the provided sources):
validates the targets (raising `InvalidTargetError` with no partial result),
then reduces the negative log-likelihood: `NONE` yields the per-example
vector, `SUM` the cluster-assembled total, `MEAN` that total divided by the
batch size (spec §4.4, §7). -/
noncomputable def forwardASML (cutoff : List ℤ) (P : ASMLParams) (x : ℕ → ℕ → ℝ)
    (targets : List ℤ) (r : ReduceMode) : Except InvalidTargetError (List ℝ) :=
  if validTargetsB cutoff targets then
    Except.ok (match r with
      | ReduceMode.NONE => (List.range targets.length).map (exampleLoss cutoff P x targets)
      | ReduceMode.SUM => [forwardSumVal cutoff P x targets]
      | ReduceMode.MEAN => [forwardSumVal cutoff P x targets / (targets.length : ℝ)])
  else Except.error InvalidTargetError.targetOutOfRange

/-- A concrete all-zero parameter bank, used to instantiate theorems. -/
def zeroParams : ASMLParams :=
  ⟨1, fun _ _ => 0, fun _ _ _ => 0, fun _ _ _ => 0, fun _ => 1⟩

/-- A parameter bank that agrees with `zeroParams` everywhere except on tail
cluster 2's down-projection, used to instantiate the frame theorem. -/
def zeroParamsAlt : ASMLParams :=
  ⟨1, fun _ _ => 0, fun j => if j = 2 then fun _ _ => 1 else fun _ _ => 0,
    fun _ _ _ => 0, fun _ => 1⟩

/-! ### Generic helper lemmas -/

theorem sum_map_range {M : Type} [AddCommMonoid M] (g : ℕ → M) :
    ∀ n, ((List.range n).map g).sum = ∑ j ∈ Finset.range n, g j
  | 0 => by simp
  | n + 1 => by
    rw [List.range_succ, List.map_append, List.sum_append, sum_map_range g n,
      Finset.sum_range_succ]
    simp

theorem sum_map_filter_range {M : Type} [AddCommMonoid M] (q : ℕ → Bool) (g : ℕ → M) :
    ∀ n, (((List.range n).filter q).map g).sum =
      ∑ p ∈ Finset.range n, if q p then g p else 0
  | 0 => by simp
  | n + 1 => by
    rw [List.range_succ, List.filter_append, List.map_append, List.sum_append,
      sum_map_filter_range q g n, Finset.sum_range_succ]
    by_cases h : q n <;> simp [h]

theorem sum_range_add_split {M : Type} [AddCommMonoid M] (f : ℕ → M) (a b : ℕ) :
    ∑ m ∈ Finset.range (a + b), f m =
      (∑ m ∈ Finset.range a, f m) + ∑ k ∈ Finset.range b, f (a + k) := by
  induction b with
  | zero => simp
  | succ n ih =>
    rw [Nat.add_succ, Finset.sum_range_succ, ih, Finset.sum_range_succ, add_assoc]

theorem sum_exp_logSoftmax (v : ℕ → ℝ) (n : ℕ) (hn : 0 < n) :
    ∑ j ∈ Finset.range n, Real.exp (logSoftmaxAt v n j) = 1 := by
  have hS : 0 < ∑ j ∈ Finset.range n, Real.exp (v j) :=
    Finset.sum_pos (fun j _ => Real.exp_pos (v j))
      (by rw [Finset.nonempty_range_iff]; omega)
  simp only [logSoftmaxAt, logSumExp, Real.exp_sub, Real.exp_log hS]
  rw [← Finset.sum_div]
  exact div_self (ne_of_gt hS)

theorem getD_map_range {α : Type} (f : ℕ → α) (d : α) (K i : ℕ) (h : i < K) :
    ((List.range K).map f).getD i d = f i := by
  rw [List.getD_eq_getElem?_getD, List.getElem?_map, List.getElem?_range h]
  rfl

/-! ### Cutoff-list lemmas -/

theorem strictAscending_cons {a b : ℤ} {t : List ℤ} :
    strictAscending (a :: b :: t) = true ↔ a < b ∧ strictAscending (b :: t) = true := by
  simp [strictAscending, Bool.and_eq_true]

theorem strictAscending_adjacent :
    ∀ (l : List ℤ), strictAscending l = true →
      ∀ k, k + 1 < l.length → l.getD k 0 < l.getD (k + 1) 0
  | [], _, k, hk => by simp at hk
  | [_], _, k, hk => by simp at hk
  | a :: b :: t, h, 0, _ => by
    have := (strictAscending_cons.mp h).1
    simpa [List.getD]
  | a :: b :: t, h, k + 1, hk => by
    have h2 := (strictAscending_cons.mp h).2
    have := strictAscending_adjacent (b :: t) h2 k
      (by simpa using Nat.lt_of_succ_lt_succ hk)
    simpa [List.getD_cons_succ]

theorem strictAscending_mono (l : List ℤ) (h : strictAscending l = true) :
    ∀ i j, i ≤ j → j < l.length → l.getD i 0 ≤ l.getD j 0 := by
  intro i j hij
  induction j, hij using Nat.le_induction with
  | base => intro _; exact le_refl _
  | succ n hn ih =>
    intro hlen
    have h1 : n < l.length := Nat.lt_of_succ_lt hlen
    exact le_trans (ih h1) (le_of_lt (strictAscending_adjacent l h n hlen))

theorem validTargetsB_iff (cutoff targets : List ℤ) :
    validTargetsB cutoff targets = true ↔
      ∀ t ∈ targets, 0 ≤ t ∧ t < cutoff.getD (cutoff.length - 1) 0 := by
  simp [validTargetsB, List.all_eq_true]

/-- Every valid target id lies in the range of exactly one cluster. -/
theorem cluster_existsUnique (cutoff : List ℤ) (hasc : strictAscending cutoff = true)
    (hne : cutoff ≠ []) (t : ℤ) (h0 : 0 ≤ t)
    (hlt : t < cutoff.getD (cutoff.length - 1) 0) :
    ∃! i, i < cutoff.length ∧ clusterLo cutoff i ≤ t ∧ t < cutoff.getD i 0 := by
  have hlen : 0 < cutoff.length := List.length_pos.mpr hne
  have hPex : ∃ k, t < cutoff.getD k 0 := ⟨cutoff.length - 1, hlt⟩
  classical
  refine ⟨Nat.find hPex, ⟨?_, ?_, Nat.find_spec hPex⟩, ?_⟩
  · have : Nat.find hPex ≤ cutoff.length - 1 := Nat.find_min' hPex hlt
    omega
  · rcases h : Nat.find hPex with _ | k
    · simpa [clusterLo]
    · have hk : ¬ t < cutoff.getD k 0 := by
        have := Nat.find_min hPex (m := k) (by omega)
        simpa using this
      simp only [clusterLo, Nat.succ_ne_zero, if_false, Nat.add_sub_cancel]
      omega
  · rintro j ⟨hj, hlo, hup⟩
    by_contra hne'
    rcases Nat.lt_or_ge j (Nat.find hPex) with hcase | hcase
    · exact Nat.find_min hPex hcase hup
    · have hjpos : Nat.find hPex < j := by omega
      have hj0 : j ≠ 0 := by omega
      have hmono : cutoff.getD (Nat.find hPex) 0 ≤ cutoff.getD (j - 1) 0 :=
        strictAscending_mono cutoff hasc (Nat.find hPex) (j - 1) (by omega) (by omega)
      have hlo' : clusterLo cutoff j = cutoff.getD (j - 1) 0 := by
        simp [clusterLo, hj0]
      have := Nat.find_spec hPex
      omega

/-- `clusterOfTarget` finds the first cutoff exceeding the target. -/
theorem clusterOfTarget_spec :
    ∀ (l : List ℤ) (t : ℤ), (∃ k, k < l.length ∧ t < l.getD k 0) →
      clusterOfTarget l t < l.length ∧ t < l.getD (clusterOfTarget l t) 0 ∧
        ∀ k, k < clusterOfTarget l t → l.getD k 0 ≤ t
  | [], t, h => by obtain ⟨k, hk, _⟩ := h; simp at hk
  | a :: rest, t, h => by
    by_cases ha : t < a
    · have h0 : clusterOfTarget (a :: rest) t = 0 := by
        simp [clusterOfTarget, List.findIdx_cons, ha]
      refine ⟨by simp [h0], by simpa [h0], ?_⟩
      intro k hk
      rw [h0] at hk
      omega
    · have hrest : ∃ k, k < rest.length ∧ t < rest.getD k 0 := by
        obtain ⟨k, hk, hkt⟩ := h
        rcases k with _ | k
        · simp at hkt; omega
        · exact ⟨k, by simpa using hk, by simpa [List.getD_cons_succ] using hkt⟩
      have ih := clusterOfTarget_spec rest t hrest
      have hstep : clusterOfTarget (a :: rest) t = clusterOfTarget rest t + 1 := by
        simp [clusterOfTarget, List.findIdx_cons, ha]
      refine ⟨by simp [hstep]; omega, by simpa [hstep, List.getD_cons_succ] using ih.2.1, ?_⟩
      intro k hk
      rcases k with _ | k
      · simpa using le_of_not_lt ha
      · rw [hstep] at hk
        exact (by simpa [List.getD_cons_succ] using ih.2.2 k (by omega))

/-! ### Stable-argmax lemmas -/

theorem stableArgmaxList_lt_length {α : Type} [LinearOrder α] [Inhabited α] :
    ∀ (l : List α), l ≠ [] → stableArgmaxList l < l.length
  | [], h => absurd rfl h
  | [_], _ => by simp [stableArgmaxList]
  | x :: y :: xs, _ => by
    have ih := stableArgmaxList_lt_length (y :: xs) (by simp)
    simp only [stableArgmaxList]
    split
    · simp
    · simpa using Nat.succ_lt_succ ih

theorem stableArgmaxList_le {α : Type} [LinearOrder α] [Inhabited α] :
    ∀ (l : List α) (j : ℕ), j < l.length →
      l.getD j default ≤ l.getD (stableArgmaxList l) default
  | [], j, hj => by simp at hj
  | [x], j, hj => by
    have hj0 : j = 0 := by
      have : j < 1 := by simpa using hj
      omega
    subst hj0
    simp [stableArgmaxList]
  | x :: y :: xs, j, hj => by
    simp only [stableArgmaxList]
    split
    · rename_i hle
      rcases j with _ | k
      · exact le_refl _
      · calc (x :: y :: xs).getD (k + 1) default
            = (y :: xs).getD k default := List.getD_cons_succ ..
          _ ≤ (y :: xs).getD (stableArgmaxList (y :: xs)) default :=
            stableArgmaxList_le (y :: xs) k (by simpa using Nat.lt_of_succ_lt_succ hj)
          _ ≤ x := hle
          _ = (x :: y :: xs).getD 0 default := by simp
    · rename_i hlt
      rw [List.getD_cons_succ]
      rcases j with _ | k
      · simpa [List.getD_cons_zero] using le_of_lt (lt_of_not_le hlt)
      · rw [List.getD_cons_succ]
        exact stableArgmaxList_le (y :: xs) k (by simpa using Nat.lt_of_succ_lt_succ hj)

theorem stableArgmaxList_first {α : Type} [LinearOrder α] [Inhabited α] :
    ∀ (l : List α) (j : ℕ), j < stableArgmaxList l →
      l.getD j default < l.getD (stableArgmaxList l) default
  | [], j, hj => by simp [stableArgmaxList] at hj
  | [x], j, hj => by simp [stableArgmaxList] at hj
  | x :: y :: xs, j, hj => by
    simp only [stableArgmaxList] at hj ⊢
    split
    · rename_i hle
      rw [if_pos hle] at hj
      omega
    · rename_i hlt
      rw [if_neg hlt] at hj
      rw [List.getD_cons_succ]
      rcases j with _ | k
      · simpa [List.getD_cons_zero] using lt_of_not_le hlt
      · rw [List.getD_cons_succ]
        exact stableArgmaxList_first (y :: xs) k (by omega)

/-! ### Constructor shape lemmas -/

theorem tailShapesAux_length (n : ℕ) (d : ℚ) :
    ∀ (rest : List ℤ) (denom : ℚ) (prev : ℤ),
      (tailShapesAux n d denom prev rest).length = rest.length
  | [], _, _ => rfl
  | _ :: rest, denom, prev => by
    simp [tailShapesAux, tailShapesAux_length n d rest (denom * d)]

theorem tailShapesAux_getD (n : ℕ) (d : ℚ) :
    ∀ (rest : List ℤ) (denom : ℚ) (prev : ℤ) (i : ℕ), i < rest.length →
      (tailShapesAux n d denom prev rest).getD i (0, 0) =
        (⌊(n : ℚ) / (denom * d ^ (i + 1))⌋,
          rest.getD i 0 - (if i = 0 then prev else rest.getD (i - 1) 0))
  | [], _, _, i, hi => by simp at hi
  | c :: rest, denom, prev, 0, _ => by
    simp [tailShapesAux, pow_one]
  | c :: rest, denom, prev, k + 1, hk => by
    have ih := tailShapesAux_getD n d rest (denom * d) c k
      (by simpa using Nat.lt_of_succ_lt_succ hk)
    have harg : denom * d * d ^ (k + 1) = denom * d ^ (k + 1 + 1) := by ring
    simp only [tailShapesAux, List.getD_cons_succ, ih, harg]
    rcases k with _ | m
    · simp
    · simp [List.getD_cons_succ]

/-- Successful construction determines the stored shapes. -/
theorem mkASML_ok_elim (n : ℕ) (cutoff : List ℤ) (d : ℚ) (S : ASMLShapes)
    (h : mkAdaptiveSoftMaxLoss n cutoff d = Except.ok S) :
    ∃ c0 rest, cutoff = c0 :: rest ∧ S.headWidth = c0.toNat + rest.length ∧
      S.tails = tailShapesAux n d 1 c0 rest := by
  match cutoff with
  | [] => simp [mkAdaptiveSoftMaxLoss] at h
  | c0 :: rest =>
    refine ⟨c0, rest, rfl, ?_⟩
    simp only [mkAdaptiveSoftMaxLoss] at h
    split at h
    · exact absurd h (by simp)
    · split at h
      · exact absurd h (by simp)
      · split at h
        · injection h with h'
          subst h'
          exact ⟨rfl, rfl⟩
        · exact absurd h (by simp)

/-! ### Mask and partition lemmas -/

theorem inMaskB_iff (cutoff targets : List ℤ) (i p : ℕ) :
    inMaskB cutoff targets i p = true ↔
      clusterLo cutoff i ≤ targets.getD p 0 ∧ targets.getD p 0 < cutoff.getD i 0 := by
  simp [inMaskB]

theorem mem_maskOf (cutoff targets : List ℤ) (i p : ℕ) :
    p ∈ maskOf cutoff targets i ↔
      p < targets.length ∧ inMaskB cutoff targets i p = true := by
  simp [maskOf, List.mem_filter, List.mem_range]

theorem valid_target_at (cutoff targets : List ℤ)
    (hv : validTargetsB cutoff targets = true) (p : ℕ) (hp : p < targets.length) :
    0 ≤ targets.getD p 0 ∧ targets.getD p 0 < cutoff.getD (cutoff.length - 1) 0 := by
  have hmem : targets.getD p 0 ∈ targets := by
    rw [List.getD_eq_getElem targets 0 hp]
    exact List.getElem_mem hp
  exact (validTargetsB_iff cutoff targets).mp hv _ hmem

/-- For a valid target, the scan result `clusterOfTarget` is the unique
cluster whose range contains it. -/
theorem clusterOfTarget_mem (cutoff : List ℤ) (hasc : strictAscending cutoff = true)
    (hne : cutoff ≠ []) (t : ℤ) (h0 : 0 ≤ t)
    (hlt : t < cutoff.getD (cutoff.length - 1) 0) :
    clusterOfTarget cutoff t < cutoff.length ∧
      clusterLo cutoff (clusterOfTarget cutoff t) ≤ t ∧
      t < cutoff.getD (clusterOfTarget cutoff t) 0 := by
  have hlen : 0 < cutoff.length := List.length_pos.mpr hne
  have hspec := clusterOfTarget_spec cutoff t ⟨cutoff.length - 1, by omega, hlt⟩
  refine ⟨hspec.1, ?_, hspec.2.1⟩
  rcases h : clusterOfTarget cutoff t with _ | k
  · simpa [clusterLo]
  · have := hspec.2.2 k (by omega)
    simpa [clusterLo]

/-- For a valid target, membership in cluster `i`'s range forces
`i = clusterOfTarget`. -/
theorem inMask_eq_clusterOfTarget (cutoff : List ℤ)
    (hasc : strictAscending cutoff = true) (hne : cutoff ≠ []) (t : ℤ)
    (h0 : 0 ≤ t) (hlt : t < cutoff.getD (cutoff.length - 1) 0) (i : ℕ)
    (hi : i < cutoff.length) (hlo : clusterLo cutoff i ≤ t)
    (hup : t < cutoff.getD i 0) : i = clusterOfTarget cutoff t := by
  obtain ⟨j, hj, huniq⟩ := cluster_existsUnique cutoff hasc hne t h0 hlt
  have hc := clusterOfTarget_mem cutoff hasc hne t h0 hlt
  have h1 := huniq i ⟨hi, hlo, hup⟩
  have h2 := huniq (clusterOfTarget cutoff t) ⟨hc.1, hc.2.1, hc.2.2⟩
  omega

/-- The cluster-wise assembled loss total equals the per-example total. -/
theorem forwardSumVal_eq (cutoff : List ℤ) (P : ASMLParams) (x : ℕ → ℕ → ℝ)
    (targets : List ℤ) (hasc : strictAscending cutoff = true) (hne : cutoff ≠ [])
    (hv : validTargetsB cutoff targets = true) :
    forwardSumVal cutoff P x targets =
      ∑ p ∈ Finset.range targets.length, exampleLoss cutoff P x targets p := by
  have hstep : ∀ i, clusterLossSum cutoff P x targets i =
      ∑ p ∈ Finset.range targets.length,
        if inMaskB cutoff targets i p then clusterTerm cutoff P x targets i p else 0 := by
    intro i
    exact sum_map_filter_range (inMaskB cutoff targets i)
      (clusterTerm cutoff P x targets i) targets.length
  unfold forwardSumVal
  simp only [hstep]
  rw [Finset.sum_comm]
  refine Finset.sum_congr rfl ?_
  intro p hp
  have hp' : p < targets.length := Finset.mem_range.mp hp
  obtain ⟨h0, hlt⟩ := valid_target_at cutoff targets hv p hp'
  set t := targets.getD p 0 with ht
  have hc := clusterOfTarget_mem cutoff hasc hne t h0 hlt
  rw [Finset.sum_eq_single (clusterOfTarget cutoff t)]
  · rw [if_pos ((inMaskB_iff cutoff targets _ p).mpr ⟨hc.2.1, hc.2.2⟩)]
    rfl
  · intro i _ hne'
    rw [if_neg]
    intro hmem
    obtain ⟨hlo, hup⟩ := (inMaskB_iff cutoff targets i p).mp hmem
    by_cases hi : i < cutoff.length
    · exact hne' (inMask_eq_clusterOfTarget cutoff hasc hne t h0 hlt i hi hlo hup)
    · have hK : 0 < cutoff.length := List.length_pos.mpr hne
      have hmono := strictAscending_mono cutoff hasc (cutoff.length - 1) (cutoff.length - 1)
        (le_refl _) (by omega)
      have : cutoff.getD i 0 = 0 := List.getD_eq_default cutoff 0 (by omega)
      omega
  · intro habs
    exact absurd (Finset.mem_range.mpr hc.1) habs

/-! ### Log-probability engine lemmas -/

theorem c0Of_pos (cutoff : List ℤ) (hne : cutoff ≠ [])
    (hpos : ∀ c ∈ cutoff, 0 < c) : 0 < c0Of cutoff := by
  have hlen : 0 < cutoff.length := List.length_pos.mpr hne
  have hmem : cutoff.getD 0 0 ∈ cutoff := by
    rw [List.getD_eq_getElem cutoff 0 hlen]
    exact List.getElem_mem hlen
  have := hpos _ hmem
  simp only [c0Of]
  omega

theorem clusterSize_pos (cutoff : List ℤ) (hasc : strictAscending cutoff = true)
    (k : ℕ) (hk : k + 1 < cutoff.length) : 0 < clusterSize cutoff (k + 1) := by
  have := strictAscending_adjacent cutoff hasc k hk
  simp only [clusterSize, clusterLo, Nat.succ_ne_zero, if_false, Nat.add_sub_cancel]
  omega

theorem clusterSize_castInt (cutoff : List ℤ) (hasc : strictAscending cutoff = true)
    (k : ℕ) (hk : k + 1 < cutoff.length) :
    (clusterSize cutoff (k + 1) : ℤ) = cutoff.getD (k + 1) 0 - cutoff.getD k 0 := by
  have := strictAscending_adjacent cutoff hasc k hk
  simp only [clusterSize, clusterLo, Nat.succ_ne_zero, if_false, Nat.add_sub_cancel]
  omega

theorem tailConcat_length (cutoff : List ℤ) (P : ASMLParams) (x : ℕ → ℝ) :
    ∀ n, (tailConcat cutoff P x n).length =
      ∑ k ∈ Finset.range n, clusterSize cutoff (k + 1)
  | 0 => rfl
  | n + 1 => by
    simp only [tailConcat, List.length_append, tailConcat_length cutoff P x n,
      Finset.sum_range_succ, tailBlock, List.length_map, List.length_range]

theorem tailConcat_exp_sum (cutoff : List ℤ) (P : ASMLParams) (x : ℕ → ℝ) :
    ∀ n, (∀ k, k < n → 0 < clusterSize cutoff (k + 1)) →
      ((tailConcat cutoff P x n).map Real.exp).sum =
        ∑ k ∈ Finset.range n,
          Real.exp (logSoftmaxAt (headLogits P x) (headWidth cutoff) (c0Of cutoff + k))
  | 0, _ => by simp [tailConcat]
  | n + 1, h => by
    have ih := tailConcat_exp_sum cutoff P x n (fun k hk => h k (by omega))
    simp only [tailConcat, List.map_append, List.sum_append, ih, Finset.sum_range_succ]
    congr 1
    rw [tailBlock, List.map_map]
    have hmap : ((List.range (clusterSize cutoff (n + 1))).map
        (Real.exp ∘ fun j => logSoftmaxAt (headLogits P x) (headWidth cutoff) (c0Of cutoff + n) +
          logSoftmaxAt (tailLogits P (n + 1) x) (clusterSize cutoff (n + 1)) j)).sum =
        ∑ j ∈ Finset.range (clusterSize cutoff (n + 1)),
          Real.exp (logSoftmaxAt (headLogits P x) (headWidth cutoff) (c0Of cutoff + n) +
            logSoftmaxAt (tailLogits P (n + 1) x) (clusterSize cutoff (n + 1)) j) :=
      sum_map_range _ _
    rw [hmap]
    have : ∀ j, Real.exp (logSoftmaxAt (headLogits P x) (headWidth cutoff) (c0Of cutoff + n) +
        logSoftmaxAt (tailLogits P (n + 1) x) (clusterSize cutoff (n + 1)) j) =
        Real.exp (logSoftmaxAt (headLogits P x) (headWidth cutoff) (c0Of cutoff + n)) *
          Real.exp (logSoftmaxAt (tailLogits P (n + 1) x) (clusterSize cutoff (n + 1)) j) :=
      fun j => Real.exp_add _ _
    simp only [this, ← Finset.mul_sum]
    rw [sum_exp_logSoftmax _ _ (h n (by omega))]
    rw [mul_one]

/-- The full log-probability vector sums (after exponentiation) to exactly 1. -/
theorem getLogProbList_exp_sum (cutoff : List ℤ) (P : ASMLParams) (x : ℕ → ℝ)
    (hne : cutoff ≠ []) (hpos : ∀ c ∈ cutoff, 0 < c)
    (hasc : strictAscending cutoff = true) :
    ((getLogProbList cutoff P x).map Real.exp).sum = 1 := by
  have hlen : 0 < cutoff.length := List.length_pos.mpr hne
  have hc0 := c0Of_pos cutoff hne hpos
  have hsizes : ∀ k, k < cutoff.length - 1 → 0 < clusterSize cutoff (k + 1) :=
    fun k hk => clusterSize_pos cutoff hasc k (by omega)
  simp only [getLogProbList, List.map_append, List.sum_append]
  rw [tailConcat_exp_sum cutoff P x (cutoff.length - 1) hsizes]
  have hhead : ((headLogProb cutoff P x).map Real.exp).sum =
      ∑ c ∈ Finset.range (c0Of cutoff),
        Real.exp (logSoftmaxAt (headLogits P x) (headWidth cutoff) c) := by
    rw [headLogProb, List.map_map]
    exact sum_map_range _ _
  rw [hhead, ← sum_range_add_split
    (fun m => Real.exp (logSoftmaxAt (headLogits P x) (headWidth cutoff) m))
    (c0Of cutoff) (cutoff.length - 1)]
  have hhw : c0Of cutoff + (cutoff.length - 1) = headWidth cutoff := rfl
  rw [hhw]
  exact sum_exp_logSoftmax _ _ (by simp only [headWidth]; omega)

/-- The full log-probability vector has one entry per class,
`cutoffs.back()` in total. -/
theorem getLogProbList_length (cutoff : List ℤ) (P : ASMLParams) (x : ℕ → ℝ)
    (hne : cutoff ≠ []) (hpos : ∀ c ∈ cutoff, 0 < c)
    (hasc : strictAscending cutoff = true) :
    (getLogProbList cutoff P x).length =
      (cutoff.getD (cutoff.length - 1) 0).toNat := by
  have hlen : 0 < cutoff.length := List.length_pos.mpr hne
  have hc0 := c0Of_pos cutoff hne hpos
  have hcast : ((getLogProbList cutoff P x).length : ℤ) =
      cutoff.getD (cutoff.length - 1) 0 := by
    simp only [getLogProbList, List.length_append, headLogProb, List.length_map,
      List.length_range, tailConcat_length]
    push_cast
    have hterm : ∀ k ∈ Finset.range (cutoff.length - 1),
        (clusterSize cutoff (k + 1) : ℤ) = cutoff.getD (k + 1) 0 - cutoff.getD k 0 :=
      fun k hk => clusterSize_castInt cutoff hasc k (by
        have := Finset.mem_range.mp hk; omega)
    rw [Finset.sum_congr rfl hterm, Finset.sum_range_sub (fun k => cutoff.getD k 0)]
    have h00 : 0 < cutoff.getD 0 0 := by
      have hmem : cutoff.getD 0 0 ∈ cutoff := by
        rw [List.getD_eq_getElem cutoff 0 hlen]
        exact List.getElem_mem hlen
      exact hpos _ hmem
    have hcoe : (c0Of cutoff : ℤ) = cutoff.getD 0 0 := by
      simp only [c0Of]
      omega
    rw [hcoe]
    ring
  omega

/-! ### Parameter-frame lemmas (sparse evaluation) -/

theorem headLogits_congr (P P' : ASMLParams) (hIn : P'.inputSize = P.inputSize)
    (hHead : P'.head = P.head) (x : ℕ → ℝ) : headLogits P' x = headLogits P x := by
  funext k
  simp [headLogits, matVecAt, hIn, hHead]

theorem tailLogits_congr (P P' : ASMLParams) (i : ℕ) (hIn : P'.inputSize = P.inputSize)
    (hD : P'.down i = P.down i) (hU : P'.up i = P.up i) (hR : P'.rd i = P.rd i)
    (x : ℕ → ℝ) : tailLogits P' i x = tailLogits P i x := by
  funext j
  simp [tailLogits, matVecAt, hIn, hD, hU, hR]

theorem clusterTerm_congr (cutoff : List ℤ) (P P' : ASMLParams) (x : ℕ → ℕ → ℝ)
    (targets : List ℤ) (i j p : ℕ) (hIn : P'.inputSize = P.inputSize)
    (hHead : P'.head = P.head) (hDown : ∀ k, k ≠ i → P'.down k = P.down k)
    (hUp : ∀ k, k ≠ i → P'.up k = P.up k) (hRd : ∀ k, k ≠ i → P'.rd k = P.rd k)
    (hj : j ≠ i) :
    clusterTerm cutoff P' x targets j p = clusterTerm cutoff P x targets j p := by
  have hHL := headLogits_congr P P' hIn hHead (x p)
  by_cases hj0 : j = 0
  · subst hj0
    simp [clusterTerm, hHL]
  · have hTL := tailLogits_congr P P' j hIn (hDown j hj) (hUp j hj) (hRd j hj) (x p)
    simp [clusterTerm, hj0, hHL, hTL]

/-! ### Claim theorems -/

/-- C1: for every parameter bank and example input, the vector returned by
`getLogProb` is a log-probability distribution: the sum over all
`cutoffs.back()` classes of its exponentials equals 1 (exactly, in the
real-number model, hence within any numerical tolerance). -/
theorem C1_getLogProb_sums_to_one (cutoff : List ℤ) (P : ASMLParams) (x : ℕ → ℝ)
    (hne : cutoff ≠ []) (hpos : ∀ c ∈ cutoff, 0 < c)
    (hasc : strictAscending cutoff = true) :
    ((getLogProbList cutoff P x).map Real.exp).sum = 1 ∧
      (getLogProbList cutoff P x).length =
        (cutoff.getD (cutoff.length - 1) 0).toNat :=
  ⟨getLogProbList_exp_sum cutoff P x hne hpos hasc,
    getLogProbList_length cutoff P x hne hpos hasc⟩

/-- Witness for C1 at `cutoffs = [1, 2]`, zero parameters, zero input. -/
theorem C1_getLogProb_sums_to_one_witness :
    ((getLogProbList [1, 2] zeroParams (fun _ => 0)).map Real.exp).sum = 1 ∧
      (getLogProbList [1, 2] zeroParams (fun _ => 0)).length =
        (([1, 2] : List ℤ).getD (([1, 2] : List ℤ).length - 1) 0).toNat :=
  C1_getLogProb_sums_to_one [1, 2] zeroParams (fun _ => 0)
    (by decide) (by decide) (by decide)

/-- C2: `predict` returns, per example, the smallest class id maximizing
`getLogProb`: the result is a valid class index, its log-probability is
maximal, and every strictly smaller class id has strictly smaller
log-probability (lowest-id tie-break). -/
theorem C2_predict_is_stable_argmax (cutoff : List ℤ) (P : ASMLParams) (x : ℕ → ℝ)
    (hne : cutoff ≠ []) (hpos : ∀ c ∈ cutoff, 0 < c)
    (hasc : strictAscending cutoff = true) :
    predictASML cutoff P x < (getLogProbList cutoff P x).length ∧
      (∀ c, c < (getLogProbList cutoff P x).length →
        (getLogProbList cutoff P x).getD c 0 ≤
          (getLogProbList cutoff P x).getD (predictASML cutoff P x) 0) ∧
      (∀ c, c < predictASML cutoff P x →
        (getLogProbList cutoff P x).getD c 0 <
          (getLogProbList cutoff P x).getD (predictASML cutoff P x) 0) := by
  have hlen0 : 0 < cutoff.length := List.length_pos.mpr hne
  have hlast : 0 < cutoff.getD (cutoff.length - 1) 0 := by
    have hmem : cutoff.getD (cutoff.length - 1) 0 ∈ cutoff := by
      rw [List.getD_eq_getElem cutoff 0 (by omega)]
      exact List.getElem_mem (by omega)
    exact hpos _ hmem
  have hlen : (getLogProbList cutoff P x).length =
      (cutoff.getD (cutoff.length - 1) 0).toNat :=
    getLogProbList_length cutoff P x hne hpos hasc
  have hne2 : getLogProbList cutoff P x ≠ [] := by
    rw [← List.length_pos, hlen]
    omega
  exact ⟨stableArgmaxList_lt_length _ hne2,
    fun c hc => stableArgmaxList_le _ c hc,
    fun c hc => stableArgmaxList_first _ c hc⟩

/-- Witness for C2 at `cutoffs = [1, 2]`, zero parameters, zero input. -/
theorem C2_predict_is_stable_argmax_witness :
    predictASML [1, 2] zeroParams (fun _ => 0) <
      (getLogProbList [1, 2] zeroParams (fun _ => 0)).length :=
  (C2_predict_is_stable_argmax [1, 2] zeroParams (fun _ => 0)
    (by decide) (by decide) (by decide)).1

/-- C3: for every batch of valid targets, `setTargets` produces one
(mask, shifted-chunk) pair per cluster; every batch position belongs to
exactly one cluster's mask (an exact partition), and each chunk holds the
targets of its mask shifted by the cluster's lower bound (`classId - lo`). -/
theorem C3_setTargets_partition (cutoff targets : List ℤ)
    (hne : cutoff ≠ []) (hasc : strictAscending cutoff = true)
    (hv : validTargetsB cutoff targets = true) :
    ∃ L, setTargets cutoff targets = Except.ok L ∧ L.length = cutoff.length ∧
      (∀ p, p < targets.length →
        ∃! i, i < cutoff.length ∧ p ∈ (L.getD i ([], [])).1) ∧
      (∀ i, i < cutoff.length →
        (L.getD i ([], [])).2 = ((L.getD i ([], [])).1).map
          fun p => targets.getD p 0 - clusterLo cutoff i) := by
  refine ⟨(List.range cutoff.length).map fun i =>
    (maskOf cutoff targets i, chunkOf cutoff targets i), ?_, ?_, ?_, ?_⟩
  · rw [setTargets, if_pos hv]
  · simp
  · intro p hp
    obtain ⟨h0, hlt⟩ := valid_target_at cutoff targets hv p hp
    obtain ⟨j, ⟨hj, hjlo, hjup⟩, huniq⟩ :=
      cluster_existsUnique cutoff hasc hne _ h0 hlt
    refine ⟨j, ⟨hj, ?_⟩, ?_⟩
    · rw [getD_map_range _ _ _ j hj]
      exact (mem_maskOf cutoff targets j p).mpr
        ⟨hp, (inMaskB_iff cutoff targets j p).mpr ⟨hjlo, hjup⟩⟩
    · rintro k ⟨hk, hkmem⟩
      rw [getD_map_range _ _ _ k hk] at hkmem
      obtain ⟨-, hkin⟩ := (mem_maskOf cutoff targets k p).mp hkmem
      obtain ⟨hklo, hkup⟩ := (inMaskB_iff cutoff targets k p).mp hkin
      exact huniq k ⟨hk, hklo, hkup⟩
  · intro i hi
    rw [getD_map_range _ _ _ i hi]
    rfl

/-- Witness for C3 at `cutoffs = [2]`, `targets = [0, 1]`. -/
theorem C3_setTargets_partition_witness : (setTargets [2] [0, 1]).isOk = true := by
  obtain ⟨L, hL, -, -, -⟩ :=
    C3_setTargets_partition [2] [0, 1] (by decide) (by decide) (by decide)
  rw [hL]
  rfl

/-- C4: for every valid batch, `forward` with the three reduction modes is
related by: the `NONE` result is the per-example vector, the `SUM` result is
its sum, and the `MEAN` result is the `SUM` result divided by the batch
size. -/
theorem C4_forward_reduction_laws (cutoff : List ℤ) (P : ASMLParams)
    (x : ℕ → ℕ → ℝ) (targets : List ℤ) (hne : cutoff ≠ [])
    (hasc : strictAscending cutoff = true)
    (hv : validTargetsB cutoff targets = true) :
    ∃ V S, forwardASML cutoff P x targets ReduceMode.NONE = Except.ok V ∧
      forwardASML cutoff P x targets ReduceMode.SUM = Except.ok [S] ∧
      V.length = targets.length ∧ S = V.sum ∧
      forwardASML cutoff P x targets ReduceMode.MEAN =
        Except.ok [S / (targets.length : ℝ)] := by
  refine ⟨(List.range targets.length).map (exampleLoss cutoff P x targets),
    forwardSumVal cutoff P x targets, ?_, ?_, ?_, ?_, ?_⟩
  · simp only [forwardASML, if_pos hv]
  · simp only [forwardASML, if_pos hv]
  · simp
  · rw [forwardSumVal_eq cutoff P x targets hasc hne hv]
    exact (sum_map_range _ _).symm
  · simp only [forwardASML, if_pos hv]

/-- Witness for C4 at `cutoffs = [2]`, zero parameters, `targets = [0, 1]`. -/
theorem C4_forward_reduction_laws_witness :
    (forwardASML [2] zeroParams (fun _ _ => 0) [0, 1] ReduceMode.SUM).isOk = true := by
  obtain ⟨V, S, -, h2, -, -, -⟩ := C4_forward_reduction_laws [2] zeroParams
    (fun _ _ => 0) [0, 1] (by decide) (by decide) (by decide)
  rw [h2]
  rfl

/-- C5: construction raises `ConfigurationError` (and produces no module)
exactly when the cutoffs are empty, contain a non-positive value, are
non-ascending, or some tail cluster's reduced dimension
`⌊inputSize / divValue^i⌋` is below 1; in particular
`cutoffs = [5, 3, 10]` fails. -/
theorem C5_construction_error_iff :
    (∀ (inputSize : ℕ) (cutoff : List ℤ) (divValue : ℚ),
      (mkAdaptiveSoftMaxLoss inputSize cutoff divValue).isOk = false ↔
        (cutoff = [] ∨ (∃ c ∈ cutoff, c ≤ 0) ∨ strictAscending cutoff = false ∨
          ∃ i, 1 ≤ i ∧ i < cutoff.length ∧
            ⌊(inputSize : ℚ) / divValue ^ i⌋ < 1)) ∧
    (mkAdaptiveSoftMaxLoss 64 [5, 3, 10] 4).isOk = false := by
  constructor
  · intro n cutoff d
    match cutoff with
    | [] => exact iff_of_true rfl (Or.inl rfl)
    | c0 :: rest =>
      by_cases hall : ((c0 :: rest).all fun c => decide (0 < c)) = true
      case neg =>
        have hallf : ((c0 :: rest).all fun c => decide (0 < c)) = false :=
          Bool.eq_false_iff.mpr hall
        have hex : ∃ c ∈ c0 :: rest, c ≤ 0 := by
          by_contra hno
          push_neg at hno
          exact hall (List.all_eq_true.mpr fun c hc => by
            simpa using hno c hc)
        have hmk : mkAdaptiveSoftMaxLoss n (c0 :: rest) d =
            Except.error ConfigurationError.invalidCutoffs := by
          simp [mkAdaptiveSoftMaxLoss, hallf]
        rw [hmk]
        exact iff_of_true rfl (Or.inr (Or.inl hex))
      case pos =>
        by_cases hasc : strictAscending (c0 :: rest) = true
        case neg =>
          have hascf : strictAscending (c0 :: rest) = false :=
            Bool.eq_false_iff.mpr hasc
          have hmk : mkAdaptiveSoftMaxLoss n (c0 :: rest) d =
              Except.error ConfigurationError.invalidCutoffs := by
            simp [mkAdaptiveSoftMaxLoss, hall, hascf]
          rw [hmk]
          exact iff_of_true rfl (Or.inr (Or.inr (Or.inl hascf)))
        case pos =>
          have hlen : (tailShapesAux n d 1 c0 rest).length = rest.length :=
            tailShapesAux_length n d rest 1 c0
          by_cases htails :
              ((tailShapesAux n d 1 c0 rest).all fun q => decide (1 ≤ q.1)) = true
          case pos =>
            have hmk : mkAdaptiveSoftMaxLoss n (c0 :: rest) d =
                Except.ok ⟨c0.toNat + rest.length, tailShapesAux n d 1 c0 rest⟩ := by
              simp [mkAdaptiveSoftMaxLoss, hall, hasc, htails]
            rw [hmk]
            refine iff_of_false (by simp [Except.isOk, Except.toBool]) ?_
            rintro (habs | ⟨c, hc, hc0⟩ | habs | ⟨i, hi1, hiK, hifl⟩)
            · exact absurd habs (by simp)
            · have := List.all_eq_true.mp hall c hc
              simp at this
              omega
            · rw [hasc] at habs
              exact absurd habs (by simp)
            · obtain ⟨j, rfl⟩ : ∃ j, i = j + 1 := ⟨i - 1, by omega⟩
              have hj : j < rest.length := by simpa using hiK
              have hj' : j < (tailShapesAux n d 1 c0 rest).length := by omega
              have hmem : (tailShapesAux n d 1 c0 rest).getD j (0, 0) ∈
                  tailShapesAux n d 1 c0 rest := by
                rw [List.getD_eq_getElem _ _ hj']
                exact List.getElem_mem hj'
              have hge := List.all_eq_true.mp htails _ hmem
              rw [tailShapesAux_getD n d rest 1 c0 j hj, one_mul] at hge
              simp at hge
              omega
          case neg =>
            have hmk : mkAdaptiveSoftMaxLoss n (c0 :: rest) d =
                Except.error ConfigurationError.reducedDimTooSmall := by
              simp [mkAdaptiveSoftMaxLoss, hall, hasc,
                Bool.eq_false_iff.mpr htails]
            rw [hmk]
            refine iff_of_true rfl (Or.inr (Or.inr (Or.inr ?_)))
            have hexq : ∃ q ∈ tailShapesAux n d 1 c0 rest, ¬ 1 ≤ q.1 := by
              by_contra hno
              push_neg at hno
              exact htails (List.all_eq_true.mpr fun q hq => by
                simpa using hno q hq)
            obtain ⟨q, hq, hq1⟩ := hexq
            obtain ⟨j, hj, hjq⟩ := List.mem_iff_getElem.mp hq
            refine ⟨j + 1, by omega, by simp; omega, ?_⟩
            have hgd : (tailShapesAux n d 1 c0 rest).getD j (0, 0) = q := by
              rw [List.getD_eq_getElem _ _ hj, hjq]
            rw [tailShapesAux_getD n d rest 1 c0 j (by omega), one_mul] at hgd
            have : ⌊(n : ℚ) / d ^ (j + 1)⌋ = q.1 := congrArg Prod.fst hgd
            omega
  · decide

/-- C6: `setTargets` (and hence `forward`) raises `InvalidTargetError`, with
no partial result, exactly when some target id falls outside
`[0, cutoffs.back())`; in particular a target id of 150 with
`cutoffs.back() = 100` fails. -/
theorem C6_invalid_target_error_iff :
    (∀ (cutoff targets : List ℤ),
      (setTargets cutoff targets).isOk = false ↔
        ∃ t ∈ targets, t < 0 ∨ cutoff.getD (cutoff.length - 1) 0 ≤ t) ∧
    (∀ (cutoff targets : List ℤ) (P : ASMLParams) (x : ℕ → ℕ → ℝ)
        (r : ReduceMode),
      (forwardASML cutoff P x targets r).isOk = false ↔
        ∃ t ∈ targets, t < 0 ∨ cutoff.getD (cutoff.length - 1) 0 ≤ t) ∧
    (setTargets [100] [150]).isOk = false := by
  have key : ∀ (cutoff targets : List ℤ),
      validTargetsB cutoff targets = false ↔
        ∃ t ∈ targets, t < 0 ∨ cutoff.getD (cutoff.length - 1) 0 ≤ t := by
    intro cutoff targets
    rw [Bool.eq_false_iff, Ne, validTargetsB_iff]
    push_neg
    constructor
    · rintro ⟨t, ht, hc⟩
      exact ⟨t, ht, by omega⟩
    · rintro ⟨t, ht, hc⟩
      exact ⟨t, ht, by omega⟩
  refine ⟨?_, ?_, by decide⟩
  · intro cutoff targets
    by_cases hv : validTargetsB cutoff targets = true
    · have hno : ¬ ∃ t ∈ targets, t < 0 ∨ cutoff.getD (cutoff.length - 1) 0 ≤ t := by
        rw [← key]
        simp [hv]
      rw [setTargets, if_pos hv]
      exact iff_of_false (by simp [Except.isOk, Except.toBool]) hno
    · have hvf : validTargetsB cutoff targets = false := Bool.eq_false_iff.mpr hv
      rw [setTargets, if_neg (by simp [hvf])]
      exact iff_of_true rfl ((key cutoff targets).mp hvf)
  · intro cutoff targets P x r
    by_cases hv : validTargetsB cutoff targets = true
    · have hno : ¬ ∃ t ∈ targets, t < 0 ∨ cutoff.getD (cutoff.length - 1) 0 ≤ t := by
        rw [← key]
        simp [hv]
      rw [forwardASML.eq_def, if_pos hv]
      exact iff_of_false (by simp [Except.isOk, Except.toBool]) hno
    · have hvf : validTargetsB cutoff targets = false := Bool.eq_false_iff.mpr hv
      rw [forwardASML.eq_def, if_neg (by simp [hvf])]
      exact iff_of_true rfl ((key cutoff targets).mp hvf)

/-- C7: every successful construction with `K` cutoffs derives a head
projection width of `cutoffs[0] + (K - 1)` and, for the `i`-th tail cluster
(1-indexed), a reduced dimension of `⌊inputSize / divValue^i⌋` together with
cluster size `cutoffs[i] - cutoffs[i-1]`. -/
theorem C7_constructed_shapes (inputSize : ℕ) (cutoff : List ℤ) (divValue : ℚ)
    (S : ASMLShapes)
    (h : mkAdaptiveSoftMaxLoss inputSize cutoff divValue = Except.ok S) :
    S.headWidth = (cutoff.getD 0 0).toNat + (cutoff.length - 1) ∧
      S.tails.length = cutoff.length - 1 ∧
      ∀ i, i < cutoff.length - 1 →
        S.tails.getD i (0, 0) =
          (⌊(inputSize : ℚ) / divValue ^ (i + 1)⌋,
            cutoff.getD (i + 1) 0 - cutoff.getD i 0) := by
  obtain ⟨c0, rest, rfl, hW, hT⟩ := mkASML_ok_elim inputSize cutoff divValue S h
  refine ⟨by simpa using hW, by simp [hT, tailShapesAux_length], ?_⟩
  intro i hi
  have hi' : i < rest.length := by simpa using hi
  rw [hT, tailShapesAux_getD inputSize divValue rest 1 c0 i hi', one_mul]
  rcases i with _ | m
  · simp
  · simp [List.getD_cons_succ]

/-- Witness for C7 at `inputSize = 64`, `cutoffs = [5, 50, 100]`,
`divValue = 4`: head width 7, reduced dimensions 16 and 4. -/
theorem C7_constructed_shapes_witness :
    mkAdaptiveSoftMaxLoss 64 [5, 50, 100] 4 =
      Except.ok ⟨7, [(16, 45), (4, 50)]⟩ ∧
      (⟨7, [(16, 45), (4, 50)]⟩ : ASMLShapes).headWidth =
        (([5, 50, 100] : List ℤ).getD 0 0).toNat +
          (([5, 50, 100] : List ℤ).length - 1) := by
  have hmk : mkAdaptiveSoftMaxLoss 64 [5, 50, 100] 4 =
      Except.ok ⟨7, [(16, 45), (4, 50)]⟩ := by
    norm_num [mkAdaptiveSoftMaxLoss, tailShapesAux, strictAscending]
    decide
  exact ⟨hmk, (C7_constructed_shapes 64 [5, 50, 100] 4 ⟨7, [(16, 45), (4, 50)]⟩ hmk).1⟩

/-- C8: in the training path, a batch in which a tail cluster has no target
present yields a loss (under every reduction mode) that is completely
independent of that cluster's down- and up-projection matrices — the
functional content of "not evaluated, zero gradient contribution"; clusters
with present targets (and the always-used head matrix) are the only
parameters the result can depend on. -/
theorem C8_absent_tail_cluster_independence (cutoff : List ℤ) (P P' : ASMLParams)
    (x : ℕ → ℕ → ℝ) (targets : List ℤ) (i : ℕ)
    (hne : cutoff ≠ []) (hasc : strictAscending cutoff = true)
    (hv : validTargetsB cutoff targets = true) (hi : 1 ≤ i)
    (hempty : maskOf cutoff targets i = [])
    (hIn : P'.inputSize = P.inputSize) (hHead : P'.head = P.head)
    (hDown : ∀ j, j ≠ i → P'.down j = P.down j)
    (hUp : ∀ j, j ≠ i → P'.up j = P.up j)
    (hRd : ∀ j, j ≠ i → P'.rd j = P.rd j) (r : ReduceMode) :
    forwardASML cutoff P' x targets r = forwardASML cutoff P x targets r := by
  have hterm : ∀ j p, j ≠ i →
      clusterTerm cutoff P' x targets j p = clusterTerm cutoff P x targets j p :=
    fun j p hj =>
      clusterTerm_congr cutoff P P' x targets i j p hIn hHead hDown hUp hRd hj
  have hsum : ∀ j, clusterLossSum cutoff P' x targets j =
      clusterLossSum cutoff P x targets j := by
    intro j
    by_cases hji : j = i
    · subst hji
      simp [clusterLossSum, hempty]
    · unfold clusterLossSum
      congr 1
      exact List.map_congr_left fun p _ => hterm j p hji
  have hS : forwardSumVal cutoff P' x targets = forwardSumVal cutoff P x targets :=
    Finset.sum_congr rfl fun j _ => hsum j
  have hEx : ∀ p ∈ List.range targets.length,
      exampleLoss cutoff P' x targets p = exampleLoss cutoff P x targets p := by
    intro p hp
    have hp' : p < targets.length := List.mem_range.mp hp
    obtain ⟨h0, hlt⟩ := valid_target_at cutoff targets hv p hp'
    have hc := clusterOfTarget_mem cutoff hasc hne _ h0 hlt
    have hnei : clusterOfTarget cutoff (targets.getD p 0) ≠ i := by
      intro heq
      have hpmem : p ∈ maskOf cutoff targets i := by
        rw [← heq]
        exact (mem_maskOf cutoff targets _ p).mpr
          ⟨hp', (inMaskB_iff cutoff targets _ p).mpr ⟨hc.2.1, hc.2.2⟩⟩
      rw [hempty] at hpmem
      exact absurd hpmem (List.not_mem_nil p)
    exact hterm _ p hnei
  cases r
  · simp only [forwardASML, if_pos hv]
    exact congrArg Except.ok (List.map_congr_left hEx)
  · simp only [forwardASML, if_pos hv, hS]
  · simp only [forwardASML, if_pos hv, hS]

/-- Witness for C8: `cutoffs = [1, 2, 3]`, a single head-cluster target, and
two parameter banks differing exactly on tail cluster 2. -/
theorem C8_absent_tail_cluster_independence_witness :
    forwardASML [1, 2, 3] zeroParamsAlt (fun _ _ => 0) [0] ReduceMode.SUM =
      forwardASML [1, 2, 3] zeroParams (fun _ _ => 0) [0] ReduceMode.SUM :=
  C8_absent_tail_cluster_independence [1, 2, 3] zeroParams zeroParamsAlt
    (fun _ _ => 0) [0] 2 (by decide) (by decide) (by decide) (by decide)
    (by decide) rfl rfl
    (fun j hj => by simp [zeroParams, zeroParamsAlt, hj])
    (fun j _ => rfl) (fun j _ => rfl) ReduceMode.SUM

/-- C9: the explicit weight-plus-bias `Conv2D` constructor raises
`ShapeMismatchError` exactly when the supplied tensors are inconsistent:
the bias's output-channel dimension (`b.dims(2)`) differs from the weight's
output-channel dimension (`w.dims(3)`), or the bias has a non-singleton
dimension anywhere other than its third dimension (stated for well-formed,
non-empty tensors: all bias dimensions at least 1). -/
theorem C9_weight_bias_shape_error_iff (w b : FLVariable) (sx sy px py groups : ℤ)
    (hb : 1 ≤ b.d0 ∧ 1 ≤ b.d1 ∧ 1 ≤ b.d2 ∧ 1 ≤ b.d3) :
    (conv2dFromWeightBias w b sx sy px py groups).isOk = false ↔
      (b.dims 2 ≠ w.dims 3 ∨ b.d0 ≠ 1 ∨ b.d1 ≠ 1 ∨ b.d3 ≠ 1) := by
  obtain ⟨h0, h1, h2, h3⟩ := hb
  by_cases hc : b.dims 2 = w.dims 3
  · rw [conv2dFromWeightBias, if_neg (by simpa using hc)]
    by_cases he : b.elements = b.dims 2
    · rw [if_neg (by simpa using he)]
      refine iff_of_false (by simp [Except.isOk, Except.toBool]) ?_
      have hkey : b.d0 * b.d1 * b.d3 = 1 := by
        have hcalc : b.d2 * (b.d0 * b.d1 * b.d3) = b.d2 * 1 := by
          rw [mul_one]
          calc b.d2 * (b.d0 * b.d1 * b.d3) = b.d0 * b.d1 * b.d2 * b.d3 := by ring
            _ = b.d2 := he
        exact Nat.eq_of_mul_eq_mul_left (by omega) hcalc
      have h01 : b.d0 * b.d1 = 1 ∧ b.d3 = 1 := mul_eq_one.mp hkey
      have h0' : b.d0 = 1 ∧ b.d1 = 1 := mul_eq_one.mp h01.1
      rintro (habs | habs | habs | habs)
      · exact habs hc
      · exact habs h0'.1
      · exact habs h0'.2
      · exact habs h01.2
    · rw [if_pos he]
      refine iff_of_true rfl (Or.inr ?_)
      by_contra hno
      push_neg at hno
      obtain ⟨e0, e1, e3⟩ := hno
      exact he (by simp [FLVariable.elements, FLVariable.dims, e0, e1, e3])
  · rw [conv2dFromWeightBias, if_pos hc]
    exact iff_of_true rfl (Or.inl hc)

/-- Witness for C9: a weight with 3 output channels and a well-formed
`1×1×3×1` bias (no error on either side of the equivalence). -/
theorem C9_weight_bias_shape_error_iff_witness :
    (conv2dFromWeightBias ⟨2, 2, 4, 3⟩ ⟨1, 1, 3, 1⟩ 1 1 0 0 1).isOk = false ↔
      ((⟨1, 1, 3, 1⟩ : FLVariable).dims 2 ≠ (⟨2, 2, 4, 3⟩ : FLVariable).dims 3 ∨
        (⟨1, 1, 3, 1⟩ : FLVariable).d0 ≠ 1 ∨ (⟨1, 1, 3, 1⟩ : FLVariable).d1 ≠ 1 ∨
        (⟨1, 1, 3, 1⟩ : FLVariable).d3 ≠ 1) :=
  C9_weight_bias_shape_error_iff ⟨2, 2, 4, 3⟩ ⟨1, 1, 3, 1⟩ 1 1 0 0 1 (by decide)

/-- C10: the weight-only explicit-parameter `Conv2D` constructor performs no
dimension validation: for every weight tensor it succeeds, producing a module
with `bias_ = false` (so `forward` always takes the bias-free `conv2d` path),
`nIn_ = w.dims(2)` and `nOut_ = w.dims(3)`. -/
theorem C10_weight_only_constructor_total (w : FLVariable) (sx sy px py groups : ℤ) :
    ∃ m, conv2dFromWeight w sx sy px py groups = Except.ok m ∧
      m.bias = false ∧ m.nIn = w.dims 2 ∧ m.nOut = w.dims 3 ∧
      m.xFilter = w.dims 0 ∧ m.yFilter = w.dims 1 ∧
      ∀ (input : FLVariable) (dpx dpy : ℤ),
        conv2dForward m input dpx dpy =
          Conv2DCall.withoutBias input w sx sy dpx dpy groups := by
  refine ⟨_, rfl, rfl, rfl, rfl, rfl, rfl, ?_⟩
  intro input dpx dpy
  rfl
